import Mathlib

/-!
Verification of the MLXCode retrieval pipeline (Python/rag_system.py).

Text is modelled as `List Char`; each Python function used by the
properties below is translated into an executable Lean definition that
mirrors the source line by line.
-/

/-- Whitespace predicate of Python `str.split()` / `str.strip()` (the common
ASCII whitespace characters; Python also treats some rarer Unicode
whitespace the same way, which no property below depends on). -/
def pyIsSpace (c : Char) : Bool :=
  c = ' ' || c = '\t' || c = '\n' || c = '\r' || c = '\x0b' || c = '\x0c'

/-- Python `sep.join(parts)` for a one-character separator. -/
def joinSep (sep : Char) : List (List Char) → List Char
  | [] => []
  | [l] => l
  | l :: l' :: ls => l ++ sep :: joinSep sep (l' :: ls)

/-- Python `text.split('\n')` (rag_system.py:389): splits at every newline,
keeping empty pieces; the empty string yields one empty piece. -/
def splitNL : List Char → List (List Char)
  | [] => [[]]
  | c :: cs =>
    if c = '\n' then [] :: splitNL cs
    else
      match splitNL cs with
      | [] => [[c]]
      | l :: ls => (c :: l) :: ls

/-- Accumulator pass for `pySplitW`; `acc` holds the current word reversed. -/
def pySplitWAux : List Char → List Char → List (List Char)
  | [], acc => if acc = [] then [] else [acc.reverse]
  | c :: cs, acc =>
    if pyIsSpace c then
      (if acc = [] then [] else [acc.reverse]) ++ pySplitWAux cs []
    else
      pySplitWAux cs (c :: acc)

/-- Python `line.split()` (rag_system.py:407): maximal runs of
non-whitespace characters; empty pieces are dropped. -/
def pySplitW (s : List Char) : List (List Char) :=
  pySplitWAux s []

/-- Inner word-wrapping loop of `_split_into_chunks`
(rag_system.py:408-421), flushing the word buffer whenever the next word
plus one separator would exceed the limit. -/
def wordWrap (M : Nat) : List (List Char) → List (List Char) → Nat → List (List Char)
  | [], wc, _ => if wc = [] then [] else [joinSep ' ' wc]
  | w :: ws, wc, wsz =>
    if M < wsz + w.length + 1 then
      joinSep ' ' wc :: wordWrap M ws [w] w.length
    else
      wordWrap M ws (wc ++ [w]) (wsz + w.length + 1)

/-- Main loop of `_split_into_chunks` (rag_system.py:391-437): `buf` is
`current_chunk`, `sz` is `current_size`.  An oversized line first flushes a
non-empty buffer, then is word-wrapped; a normal line is appended to the
buffer, which is flushed first when the line plus one separator would
overflow; a final non-empty buffer is flushed at the end. -/
def chunkLoop (M : Nat) : List (List Char) → List (List Char) → Nat → List (List Char)
  | [], buf, _ => if buf = [] then [] else [joinSep '\n' buf]
  | line :: rest, buf, sz =>
    if M < line.length then
      if buf = [] then
        wordWrap M (pySplitW line) [] 0 ++ chunkLoop M rest [] sz
      else
        joinSep '\n' buf :: (wordWrap M (pySplitW line) [] 0 ++ chunkLoop M rest [] 0)
    else if M < sz + line.length + 1 then
      joinSep '\n' buf :: chunkLoop M rest [line] line.length
    else
      chunkLoop M rest (buf ++ [line]) (sz + line.length + 1)

/-- `RAGSystem._split_into_chunks(text, max_chunk_size)`
(rag_system.py:377-437). -/
def splitIntoChunks (text : List Char) (M : Nat) : List (List Char) :=
  chunkLoop M (splitNL text) [] 0

/-- A chunk that is a single unsplittable word: non-empty and free of
whitespace. -/
def isWordChunk (c : List Char) : Bool :=
  !c.isEmpty && c.all (fun ch => !pyIsSpace ch)

/-- Python `content.strip()` (rag_system.py:185): strip whitespace from
both ends. -/
def pyStrip (s : List Char) : List Char :=
  ((s.dropWhile fun c => pyIsSpace c).reverse.dropWhile fun c => pyIsSpace c).reverse

/-- One search hit as consumed by `get_context_for_query`
(rag_system.py:315-320): the metadata fields used for formatting plus the
chunk text. -/
structure SearchHit where
  file_name : List Char
  file_extension : List Char
  document : List Char

/-- Entry formatting of `get_context_for_query` (rag_system.py:320):
`"\n# From {file_name} ({file_extension})\n```\n{document}\n```\n"`. -/
def formatEntry (r : SearchHit) : List Char :=
  "\n# From ".toList ++ r.file_name ++ " (".toList ++ r.file_extension
    ++ ")\n".toList ++ "```\n".toList ++ r.document ++ "\n```\n".toList

/-- Accumulation loop of `get_context_for_query` (rag_system.py:312-327):
`parts` is `context_parts`, `cur` is `current_length`; the loop breaks at
the first entry that would exceed `max_context_length`. -/
def contextLoop (M : Nat) : List SearchHit → List (List Char) → Nat → List (List Char)
  | [], parts, _ => parts
  | h :: rest, parts, cur =>
    if M < cur + (formatEntry h).length then parts
    else contextLoop M rest (parts ++ [formatEntry h]) (cur + (formatEntry h).length)

/-- `RAGSystem.get_context_for_query` on an already-retrieved hit list
(rag_system.py:312-329): accumulate entries, then `"\n".join(context_parts)`. -/
def getContextForQuery (hits : List SearchHit) (M : Nat) : List Char :=
  joinSep '\n' (contextLoop M hits [] 0)

/-- Outcome of `RAGSystem.search` as observed by `get_context_for_query`
(rag_system.py:307-310): either `success=False` (embedding or store error)
or a list of hits. -/
inductive SearchOutcome where
  | failed : SearchOutcome
  | succeeded : List SearchHit → SearchOutcome

/-- `RAGSystem.get_context_for_query` including the search step
(rag_system.py:307-329): a failed search returns the empty string. -/
def getContextForQueryResult (r : SearchOutcome) (M : Nat) : List Char :=
  match r with
  | SearchOutcome.failed => []
  | SearchOutcome.succeeded hits => getContextForQuery hits M

/-- The greedy packing described by the spec (section 4.5), stated directly:
iterate hits in order; stop entirely at the first hit whose formatted entry
would exceed the remaining budget. -/
def specGreedyPack (M : Nat) : List SearchHit → Nat → List (List Char)
  | [], _ => []
  | h :: rest, cur =>
    if M < cur + (formatEntry h).length then []
    else formatEntry h :: specGreedyPack M rest (cur + (formatEntry h).length)

/-- Python `str(i)` for a natural number: decimal digits, most significant
first, `"0"` for zero. -/
def natStr (n : Nat) : List Char :=
  if n = 0 then ['0'] else ((Nat.digits 10 n).map Nat.digitChar).reverse

/-- Chunk identity of `index_file` (rag_system.py:192-203):
`file_id = md5(str(file_path)).hexdigest()` and
`chunk_id = f"{file_id}_{i}"`.  The external hash (hashlib.md5 hexdigest)
is a parameter `H`; its output is a fixed-length hex string. -/
def chunkId (H : List Char → List Char) (path : List Char) (i : Nat) : List Char :=
  H path ++ '_' :: natStr i

/-- The external vector store's record list: `(id, document)` pairs in
insertion order. -/
abbrev Store : Type := List (List Char × List Char)

/-- Lookup of a record by id (first match). -/
def storeGet : Store → List Char → Option (List Char)
  | [], _ => none
  | (k, v) :: s, id => if k = id then some v else storeGet s id

/-- ChromaDB `collection.add` (external collaborator, called at
rag_system.py:205): inserts a record with a new id; an id that is already
present is not replaced (`add` does not overwrite existing records, unlike
`upsert`). -/
def storeAdd (s : Store) (id text : List Char) : Store :=
  if (storeGet s id).isSome then s else s ++ [(id, text)]

/-- Modelled from the spec: `upsert` is insert-or-replace by identifier
(spec sections 6 and glossary).  Used only to compare against the code's
actual submission path. -/
def storeUpsert : Store → List Char → List Char → Store
  | [], id, text => [(id, text)]
  | (k, v) :: s, id, text =>
    if k = id then (id, text) :: s else (k, v) :: storeUpsert s id text

/-- Storage loop of `index_file` (rag_system.py:202-216): submit one
`(chunk_id, chunk)` record per chunk via `collection.add`, with ids
numbered from `i`. -/
def indexChunksFrom (H : List Char → List Char) (path : List Char) :
    Nat → List (List Char) → Store → Store
  | _, [], s => s
  | i, c :: cs, s => indexChunksFrom H path (i + 1) cs (storeAdd s (chunkId H path i) c)

/-- The full storage pass of `index_file` over its chunk list
(rag_system.py:202-216), starting at chunk index 0. -/
def indexChunks (H : List Char → List Char) (path : List Char)
    (chunks : List (List Char)) (s : Store) : Store :=
  indexChunksFrom H path 0 chunks s

/-- Content of one file as seen by `index_file` (rag_system.py:173-182):
either undecodable (UnicodeDecodeError on read) or decoded text. -/
inductive FileContent where
  | undecodable : FileContent
  | text : List Char → FileContent

/-- Result dict of `index_file` for an existing file
(rag_system.py:173-222): encoding error, empty file, or success with the
number of chunks.  Every path returns a result; `index_file` never raises
(its body is wrapped in try/except returning dicts). -/
inductive IndexFileResult where
  | encodingError : IndexFileResult
  | emptyFile : IndexFileResult
  | success : Nat → IndexFileResult

/-- Decision logic of `index_file` on the file's content
(rag_system.py:173-196): reject undecodable content, reject
empty/whitespace-only content (`not content.strip()`), otherwise chunk with
`max_chunk_size=1000`. -/
def indexFileContent : FileContent → IndexFileResult
  | FileContent.undecodable => IndexFileResult.encodingError
  | FileContent.text s =>
    if pyStrip s = [] then IndexFileResult.emptyFile
    else IndexFileResult.success (splitIntoChunks s 1000).length

/-- One directory entry of `index_directory`'s file walk
(rag_system.py:102-115): whether it passes the extension allow-list and
exclude-pattern filter, and its content. -/
structure DirEntry where
  matchesFilter : Bool
  content : FileContent

/-- The aggregate counters returned by `index_directory`
(rag_system.py:97-143). -/
structure BatchStats where
  indexed : Nat
  skipped : Nat
  errors : Nat

/-- Per-file loop of `index_directory` (rag_system.py:102-135): files
failing the filter increment `skipped_count`; otherwise `index_file` is
called, its returned result dict is discarded, and `indexed_count` is
incremented.  `error_count` would be incremented only if `index_file`
raised, which it never does (every code path of `index_file` returns a
result dict), so the `except` branch is unreachable. -/
def indexDirectoryLoop : List DirEntry → BatchStats → BatchStats
  | [], s => s
  | e :: es, s =>
    if e.matchesFilter then
      match indexFileContent e.content with
      | _ => indexDirectoryLoop es ⟨s.indexed + 1, s.skipped, s.errors⟩
    else
      indexDirectoryLoop es ⟨s.indexed, s.skipped + 1, s.errors⟩

/-- `RAGSystem.index_directory` over an existing directory's file list
(rag_system.py:97-143). -/
def indexDirectory (files : List DirEntry) : BatchStats :=
  indexDirectoryLoop files ⟨0, 0, 0⟩

/-- A rejoining of a chunk list with arbitrary separator strings placed
between consecutive chunks. -/
def interleave : List (List Char) → List (List Char) → List Char
  | [], _ => []
  | c :: cs, [] => c ++ interleave cs []
  | c :: cs, s :: ss => c ++ s ++ interleave cs ss

/-- `chunks` can be rejoined into `T` by inserting some separator string
between each pair of consecutive chunks (the most liberal reading of
"rejoining with the original separators": the separators may be arbitrary
strings). -/
def rejoinsTo (chunks : List (List Char)) (T : List Char) : Prop :=
  ∃ seps : List (List Char), seps.length + 1 = chunks.length ∧ interleave chunks seps = T

/-- Sum of the lengths of a list of chunks. -/
def sumLens (ls : List (List Char)) : Nat :=
  (ls.map List.length).sum

-- Concrete inputs used by individual claims.

/-- A text whose only line is oversized and carries trailing whitespace:
`"aaaa  "` (four letters, two trailing spaces). -/
def lossyText : List Char := "aaaa  ".toList

/-- A small two-line text, each line shorter than 5 characters. -/
def smallText : List Char := "ab\nc".toList

/-- A single word of six letters. -/
def longWord : List Char := "aaaaaa".toList

/-- First line of the 2500-character scenario document: 1000 characters. -/
def line1 : List Char := List.replicate 1000 'a'

/-- Second line of the 2500-character scenario document: 1000 characters. -/
def line2 : List Char := List.replicate 1000 'b'

/-- Third line of the 2500-character scenario document: 500 characters. -/
def line3 : List Char := List.replicate 500 'c'

/-- The 2500-character scenario document: three lines of 1000/1000/500
characters. -/
def doc2500 : List Char := line1 ++ ('\n' :: (line2 ++ ('\n' :: line3)))

/-- A search hit with empty name, extension and document; its formatted
entry consists of the 21 characters of formatting overhead alone. -/
def emptyHit : SearchHit := ⟨[], [], []⟩

/-- The decoded content `"hello"`. -/
def helloChars : List Char := "hello".toList

-- Sanity checks of the embedding on concrete inputs (mirrors Python runs).
example : splitIntoChunks "hello".toList 1000 = ["hello".toList] := by decide
example : splitIntoChunks "ab\ncd".toList 1000 = ["ab\ncd".toList] := by decide
example : splitIntoChunks [] 1000 = [[]] := by decide
example : splitIntoChunks "aaaa bb".toList 5 = ["aaaa".toList, "bb".toList] := by decide
example : pySplitW "  a  bc ".toList = ["a".toList, "bc".toList] := by decide
example : splitNL "a\nb\n".toList = ["a".toList, "b".toList, []] := by decide
example : pyStrip "  ab ".toList = "ab".toList := by decide
example : (formatEntry emptyHit).length = 21 := by decide
example : splitIntoChunks lossyText 5 = ["aaaa".toList] := by decide
example : (getContextForQuery [emptyHit, emptyHit] 42).length = 43 := by decide
example : chunkId (fun s => s) "p".toList 0 = "p_0".toList := by decide
example : natStr 0 = "0".toList := by decide
example : natStr 12 = "12".toList := by
  have h1 : Nat.digits 10 12 = [2, 1] := by
    rw [Nat.digits_def' (by norm_num : (1:ℕ) < 10) (by norm_num : (0:ℕ) < 12)]
    norm_num
  simp [natStr, h1]
  decide
example :
    indexDirectory [⟨true, FileContent.text []⟩, ⟨true, FileContent.text helloChars⟩]
      = ⟨2, 0, 0⟩ := by rfl

-- Structural lemmas about `joinSep` and `splitNL`.

theorem joinSep_cons (sep : Char) (x : List Char) {ys : List (List Char)} (hy : ys ≠ []) :
    joinSep sep (x :: ys) = x ++ sep :: joinSep sep ys := by
  cases ys with
  | nil => exact absurd rfl hy
  | cons y ys' => rfl

theorem joinSep_append (sep : Char) {xs ys : List (List Char)} (hx : xs ≠ []) (hy : ys ≠ []) :
    joinSep sep (xs ++ ys) = joinSep sep xs ++ sep :: joinSep sep ys := by
  induction xs with
  | nil => exact absurd rfl hx
  | cons x xs' ih =>
    cases xs' with
    | nil => simp [joinSep_cons sep x hy, joinSep]
    | cons a as =>
      have h1 : (a :: as) ++ ys ≠ [] := by simp
      have h2 : (a :: as : List (List Char)) ≠ [] := by simp
      calc joinSep sep ((x :: a :: as) ++ ys)
          = x ++ sep :: joinSep sep ((a :: as) ++ ys) := by
            simp only [List.cons_append]
            exact joinSep_cons sep x h1
        _ = x ++ sep :: (joinSep sep (a :: as) ++ sep :: joinSep sep ys) := by
            rw [ih h2]
        _ = (x ++ sep :: joinSep sep (a :: as)) ++ sep :: joinSep sep ys := by
            simp
        _ = joinSep sep (x :: a :: as) ++ sep :: joinSep sep ys := by
            rw [joinSep_cons sep x h2]

theorem joinSep_append_single (sep : Char) {xs : List (List Char)} (y : List Char)
    (hx : xs ≠ []) : joinSep sep (xs ++ [y]) = joinSep sep xs ++ sep :: y := by
  rw [joinSep_append sep hx (by simp)]
  rfl

theorem splitNL_ne_nil (s : List Char) : splitNL s ≠ [] := by
  cases s with
  | nil => simp [splitNL]
  | cons c cs =>
    simp only [splitNL]
    split
    · simp
    · split <;> simp

theorem joinSep_splitNL (s : List Char) : joinSep '\n' (splitNL s) = s := by
  induction s with
  | nil => rfl
  | cons c cs ih =>
    by_cases hc : c = '\n'
    · subst hc
      obtain ⟨l, ls, h⟩ : ∃ l ls, splitNL cs = l :: ls := by
        cases h : splitNL cs with
        | nil => exact absurd h (splitNL_ne_nil cs)
        | cons a b => exact ⟨a, b, rfl⟩
      have hs : splitNL ('\n' :: cs) = [] :: l :: ls := by
        simp [splitNL, h]
      rw [hs, joinSep_cons '\n' [] (by simp), ← h, ih]
      rfl
    · simp only [splitNL, if_neg hc]
      cases h : splitNL cs with
      | nil => exact absurd h (splitNL_ne_nil cs)
      | cons l ls =>
        rw [h] at ih
        cases ls with
        | nil =>
          simp only [joinSep] at ih ⊢
          rw [ih]
        | cons y ys =>
          rw [joinSep_cons '\n' (c :: l) (by simp)]
          rw [joinSep_cons '\n' l (by simp)] at ih
          simp only [List.cons_append]
          rw [ih]

-- Behaviour of `chunkLoop` on lines that never trigger the word-wrap path.

theorem chunkLoop_ne_nil (M : Nat) (lines : List (List Char)) :
    ∀ buf sz, buf ≠ [] → chunkLoop M lines buf sz ≠ [] := by
  induction lines with
  | nil =>
    intro buf sz h
    simp [chunkLoop, h]
  | cons l rest ih =>
    intro buf sz h
    simp only [chunkLoop, if_neg h]
    split
    · simp
    · split
      · simp
      · exact ih (buf ++ [l]) (sz + l.length + 1) (by simp)

theorem chunkLoop_join (M : Nat) (lines : List (List Char))
    (hall : ∀ l ∈ lines, l.length < M) :
    ∀ buf sz, buf ≠ [] →
      joinSep '\n' (chunkLoop M lines buf sz) = joinSep '\n' (buf ++ lines) := by
  induction lines with
  | nil =>
    intro buf sz h
    simp [chunkLoop, h, joinSep]
  | cons l rest ih =>
    intro buf sz hbuf
    have hl : l.length < M := hall l (by simp)
    have hrest : ∀ x ∈ rest, x.length < M := fun x hx => hall x (by simp [hx])
    simp only [chunkLoop]
    rw [if_neg (by omega : ¬ M < l.length)]
    by_cases hov : M < sz + l.length + 1
    · rw [if_pos hov]
      obtain ⟨c0, cs, hc⟩ : ∃ c0 cs, chunkLoop M rest [l] l.length = c0 :: cs := by
        cases h : chunkLoop M rest [l] l.length with
        | nil => exact absurd h (chunkLoop_ne_nil M rest [l] l.length (by simp))
        | cons a b => exact ⟨a, b, rfl⟩
      rw [hc, joinSep_cons '\n' (joinSep '\n' buf) (by simp), ← hc]
      rw [ih hrest [l] l.length (by simp)]
      have hll : ([l] ++ rest : List (List Char)) = l :: rest := rfl
      rw [hll, ← joinSep_append '\n' hbuf (by simp : (l :: rest : List (List Char)) ≠ [])]
    · rw [if_neg hov]
      rw [ih hrest (buf ++ [l]) (sz + l.length + 1) (by simp)]
      rw [List.append_assoc]
      simp

/-- If no line of the input reaches length `M`, chunking only groups whole
lines and joining the chunks with a newline restores the input. -/
theorem chunks_join_of_short_lines (T : List Char) (M : Nat)
    (h : ∀ l ∈ splitNL T, l.length < M) :
    joinSep '\n' (splitIntoChunks T M) = T := by
  obtain ⟨l, ls, hT⟩ : ∃ l ls, splitNL T = l :: ls := by
    cases hs : splitNL T with
    | nil => exact absurd hs (splitNL_ne_nil T)
    | cons a b => exact ⟨a, b, rfl⟩
  have hl : l.length < M := h l (by rw [hT]; simp)
  have hls : ∀ x ∈ ls, x.length < M := fun x hx => h x (by rw [hT]; simp [hx])
  unfold splitIntoChunks
  rw [hT]
  simp only [chunkLoop]
  rw [if_neg (by omega : ¬ M < l.length)]
  rw [if_neg (by omega : ¬ M < 0 + l.length + 1)]
  rw [chunkLoop_join M ls hls ([] ++ [l]) (0 + l.length + 1) (by simp)]
  have : ([] ++ [l]) ++ ls = l :: ls := by simp
  rw [this, ← hT, joinSep_splitNL]

-- Size-bound machinery: every flushed chunk is within the limit or is a
-- single unsplittable word.

theorem isWordChunk_reverse (acc : List Char) (hnil : acc ≠ [])
    (hacc : ∀ ch ∈ acc, pyIsSpace ch = false) : isWordChunk acc.reverse = true := by
  simp only [isWordChunk, Bool.and_eq_true, Bool.not_eq_true']
  refine ⟨?_, ?_⟩
  · simp [List.isEmpty_iff, hnil]
  · simp only [List.all_eq_true, List.mem_reverse]
    intro x hx
    simp [hacc x hx]

theorem pySplitWAux_words (s : List Char) :
    ∀ acc, (∀ ch ∈ acc, pyIsSpace ch = false) →
      ∀ w ∈ pySplitWAux s acc, isWordChunk w = true := by
  induction s with
  | nil =>
    intro acc hacc w hw
    simp only [pySplitWAux] at hw
    by_cases hnil : acc = []
    · simp [hnil] at hw
    · rw [if_neg hnil] at hw
      simp only [List.mem_singleton] at hw
      subst hw
      exact isWordChunk_reverse acc hnil hacc
  | cons c cs ih =>
    intro acc hacc w hw
    simp only [pySplitWAux] at hw
    by_cases hsp : pyIsSpace c = true
    · rw [if_pos hsp] at hw
      simp only [List.mem_append] at hw
      rcases hw with hw | hw
      · by_cases hnil : acc = []
        · simp [hnil] at hw
        · rw [if_neg hnil] at hw
          simp only [List.mem_singleton] at hw
          subst hw
          exact isWordChunk_reverse acc hnil hacc
      · exact ih [] (by simp) w hw
    · rw [if_neg hsp] at hw
      refine ih (c :: acc) ?_ w hw
      intro ch hch
      rcases List.mem_cons.mp hch with h | h
      · subst h
        exact Bool.eq_false_iff.mpr hsp
      · exact hacc ch h

theorem pySplitW_words (s : List Char) : ∀ w ∈ pySplitW s, isWordChunk w = true :=
  pySplitWAux_words s [] (by simp)

theorem joinSep_words_flush (M : Nat) (wc : List (List Char)) (wsz : Nat)
    (hwc : ∀ w ∈ wc, isWordChunk w = true)
    (hlen : (joinSep ' ' wc).length ≤ wsz)
    (h2 : 2 ≤ wc.length → wsz ≤ M) :
    M < (joinSep ' ' wc).length → isWordChunk (joinSep ' ' wc) = true := by
  intro hM
  match wc with
  | [] => simp [joinSep] at hM
  | [w] =>
    show isWordChunk w = true
    exact hwc w (by simp)
  | w1 :: w2 :: ws =>
    have hle : wsz ≤ M := h2 (by simp only [List.length_cons]; omega)
    omega

theorem wordWrap_sound (M : Nat) (ws : List (List Char)) :
    ∀ wc wsz,
      (∀ w ∈ ws, isWordChunk w = true) →
      (∀ w ∈ wc, isWordChunk w = true) →
      (joinSep ' ' wc).length ≤ wsz →
      (2 ≤ wc.length → wsz ≤ M) →
      ∀ c ∈ wordWrap M ws wc wsz, M < c.length → isWordChunk c = true := by
  induction ws with
  | nil =>
    intro wc wsz _ hwc hlen h2 c hc hM
    simp only [wordWrap] at hc
    by_cases hnil : wc = []
    · simp [hnil] at hc
    · rw [if_neg hnil] at hc
      simp only [List.mem_singleton] at hc
      subst hc
      exact joinSep_words_flush M wc wsz hwc hlen h2 hM
  | cons w ws' ih =>
    intro wc wsz hws hwc hlen h2 c hc hM
    have hw : isWordChunk w = true := hws w (by simp)
    have hws' : ∀ x ∈ ws', isWordChunk x = true := fun x hx => hws x (by simp [hx])
    simp only [wordWrap] at hc
    by_cases hov : M < wsz + w.length + 1
    · rw [if_pos hov] at hc
      rcases List.mem_cons.mp hc with hc | hc
      · subst hc
        exact joinSep_words_flush M wc wsz hwc hlen h2 hM
      · refine ih [w] w.length hws' ?_ ?_ ?_ c hc hM
        · intro x hx
          rcases List.mem_singleton.mp hx with rfl
          exact hw
        · simp [joinSep]
        · intro hh
          simp only [List.length_singleton] at hh
          omega
    · rw [if_neg hov] at hc
      refine ih (wc ++ [w]) (wsz + w.length + 1) hws' ?_ ?_ ?_ c hc hM
      · intro x hx
        rcases List.mem_append.mp hx with h | h
        · exact hwc x h
        · rcases List.mem_singleton.mp h with rfl
          exact hw
      · by_cases hnil : wc = []
        · subst hnil
          simp only [List.nil_append, joinSep]
          omega
        · rw [joinSep_append_single ' ' w hnil]
          simp only [List.length_append, List.length_cons]
          omega
      · intro _
        omega

theorem chunkLoop_sound (M : Nat) (lines : List (List Char)) :
    ∀ buf sz, (joinSep '\n' buf).length ≤ sz → sz ≤ M →
      ∀ c ∈ chunkLoop M lines buf sz, M < c.length → isWordChunk c = true := by
  induction lines with
  | nil =>
    intro buf sz hlen hszM c hc hM
    simp only [chunkLoop] at hc
    by_cases hnil : buf = []
    · simp [hnil] at hc
    · rw [if_neg hnil] at hc
      simp only [List.mem_singleton] at hc
      subst hc
      omega
  | cons l rest ih =>
    intro buf sz hlen hszM c hc hM
    simp only [chunkLoop] at hc
    by_cases hbig : M < l.length
    · rw [if_pos hbig] at hc
      by_cases hnil : buf = []
      · rw [if_pos hnil] at hc
        rcases List.mem_append.mp hc with hc | hc
        · exact wordWrap_sound M (pySplitW l) [] 0 (pySplitW_words l) (by simp)
            (by simp [joinSep]) (by intro hh; simp at hh) c hc hM
        · exact ih [] sz (by simp [joinSep]) hszM c hc hM
      · rw [if_neg hnil] at hc
        rcases List.mem_cons.mp hc with hc | hc
        · subst hc
          omega
        · rcases List.mem_append.mp hc with hc | hc
          · exact wordWrap_sound M (pySplitW l) [] 0 (pySplitW_words l) (by simp)
              (by simp [joinSep]) (by intro hh; simp at hh) c hc hM
          · exact ih [] 0 (by simp [joinSep]) (Nat.zero_le M) c hc hM
    · rw [if_neg hbig] at hc
      by_cases hov : M < sz + l.length + 1
      · rw [if_pos hov] at hc
        rcases List.mem_cons.mp hc with hc | hc
        · subst hc
          omega
        · exact ih [l] l.length (by simp [joinSep]) (by omega) c hc hM
      · rw [if_neg hov] at hc
        refine ih (buf ++ [l]) (sz + l.length + 1) ?_ (by omega) c hc hM
        by_cases hnil : buf = []
        · subst hnil
          simp only [List.nil_append, joinSep]
          omega
        · rw [joinSep_append_single '\n' l hnil]
          simp only [List.length_append, List.length_cons]
          omega

-- Context assembly: the accumulation loop is the spec's greedy packing.

theorem contextLoop_eq_specGreedyPack (M : Nat) (hs : List SearchHit) :
    ∀ parts cur, contextLoop M hs parts cur = parts ++ specGreedyPack M hs cur := by
  induction hs with
  | nil =>
    intro parts cur
    simp [contextLoop, specGreedyPack]
  | cons h rest ih =>
    intro parts cur
    simp only [contextLoop, specGreedyPack]
    by_cases hov : M < cur + (formatEntry h).length
    · rw [if_pos hov, if_pos hov]
      simp
    · rw [if_neg hov, if_neg hov]
      rw [ih]
      simp

theorem specGreedyPack_is_map_take (M : Nat) (hs : List SearchHit) :
    ∀ cur, ∃ n, specGreedyPack M hs cur = (hs.take n).map formatEntry := by
  induction hs with
  | nil =>
    intro cur
    exact ⟨0, by simp [specGreedyPack]⟩
  | cons h rest ih =>
    intro cur
    by_cases hov : M < cur + (formatEntry h).length
    · refine ⟨0, ?_⟩
      simp [specGreedyPack, if_pos hov]
    · obtain ⟨n, hn⟩ := ih (cur + (formatEntry h).length)
      refine ⟨n + 1, ?_⟩
      simp [specGreedyPack, if_neg hov, hn]

-- Decimal representation and chunk-identity injectivity.

theorem digitChar_inj_lt10 (a b : Nat) (ha : a < 10) (hb : b < 10)
    (h : Nat.digitChar a = Nat.digitChar b) : a = b := by
  interval_cases a <;> interval_cases b <;> simp_all [Nat.digitChar]

theorem map_digitChar_inj (l1 : List Nat) :
    ∀ l2, (∀ x ∈ l1, x < 10) → (∀ x ∈ l2, x < 10) →
      l1.map Nat.digitChar = l2.map Nat.digitChar → l1 = l2 := by
  induction l1 with
  | nil =>
    intro l2 _ _ h
    cases l2 with
    | nil => rfl
    | cons b bs => simp at h
  | cons a as ih =>
    intro l2 h1 h2 h
    cases l2 with
    | nil => simp at h
    | cons b bs =>
      simp only [List.map_cons, List.cons.injEq] at h
      have hab : a = b :=
        digitChar_inj_lt10 a b (h1 a (by simp)) (h2 b (by simp)) h.1
      have hasbs : as = bs :=
        ih bs (fun x hx => h1 x (by simp [hx])) (fun x hx => h2 x (by simp [hx])) h.2
      rw [hab, hasbs]

theorem natStr_inj (a b : Nat) (h : natStr a = natStr b) : a = b := by
  by_cases ha : a = 0 <;> by_cases hb : b = 0
  · omega
  · exfalso
    rw [natStr, if_pos ha, natStr, if_neg hb] at h
    have hd : (Nat.digits 10 b).map Nat.digitChar = ['0'] := by
      have := congrArg List.reverse h
      simpa using this.symm
    have hdig : Nat.digits 10 b = [0] := by
      refine map_digitChar_inj (Nat.digits 10 b) [0]
        (fun x hx => Nat.digits_lt_base (by norm_num) hx) (by simp) ?_
      simpa [Nat.digitChar] using hd
    have : b = 0 := by
      have hof := Nat.ofDigits_digits 10 b
      rw [hdig] at hof
      simpa [Nat.ofDigits] using hof.symm
    exact hb this
  · exfalso
    rw [natStr, if_neg ha, natStr, if_pos hb] at h
    have hd : (Nat.digits 10 a).map Nat.digitChar = ['0'] := by
      have := congrArg List.reverse h
      simpa using this
    have hdig : Nat.digits 10 a = [0] := by
      refine map_digitChar_inj (Nat.digits 10 a) [0]
        (fun x hx => Nat.digits_lt_base (by norm_num) hx) (by simp) ?_
      simpa [Nat.digitChar] using hd
    have : a = 0 := by
      have hof := Nat.ofDigits_digits 10 a
      rw [hdig] at hof
      simpa [Nat.ofDigits] using hof.symm
    exact ha this
  · rw [natStr, if_neg ha, natStr, if_neg hb] at h
    have hmap : (Nat.digits 10 a).map Nat.digitChar = (Nat.digits 10 b).map Nat.digitChar := by
      have := congrArg List.reverse h
      simpa using this
    have hdig : Nat.digits 10 a = Nat.digits 10 b :=
      map_digitChar_inj (Nat.digits 10 a) (Nat.digits 10 b)
        (fun x hx => Nat.digits_lt_base (by norm_num) hx)
        (fun x hx => Nat.digits_lt_base (by norm_num) hx) hmap
    exact Nat.digits.injective 10 hdig

-- Store lemmas: `add` never touches records whose id is already present.

theorem storeGet_append_of_isSome (s : Store) (id : List Char) (p : List Char × List Char)
    (h : (storeGet s id).isSome) : storeGet (s ++ [p]) id = storeGet s id := by
  induction s with
  | nil => simp [storeGet] at h
  | cons q s' ih =>
    obtain ⟨k, v⟩ := q
    by_cases hk : k = id
    · simp [storeGet, hk]
    · simp only [storeGet, if_neg hk] at h ⊢
      exact ih h

theorem storeGet_storeAdd_of_isSome (s : Store) (id id' text : List Char)
    (h : (storeGet s id).isSome) : storeGet (storeAdd s id' text) id = storeGet s id := by
  unfold storeAdd
  by_cases hp : (storeGet s id').isSome
  · rw [if_pos hp]
  · rw [if_neg hp]
    exact storeGet_append_of_isSome s id (id', text) h

theorem storeAdd_isSome (s : Store) (id id' text : List Char)
    (h : (storeGet s id).isSome) : (storeGet (storeAdd s id' text) id).isSome := by
  rw [storeGet_storeAdd_of_isSome s id id' text h]
  exact h

theorem indexChunksFrom_preserves (H : List Char → List Char) (path : List Char)
    (chunks : List (List Char)) :
    ∀ i s id, (storeGet s id).isSome →
      storeGet (indexChunksFrom H path i chunks s) id = storeGet s id := by
  induction chunks with
  | nil =>
    intro i s id _
    rfl
  | cons c cs ih =>
    intro i s id h
    simp only [indexChunksFrom]
    rw [ih (i + 1) (storeAdd s (chunkId H path i) c) id (storeAdd_isSome s id _ c h)]
    exact storeGet_storeAdd_of_isSome s id (chunkId H path i) c h

theorem storeGet_isSome_of_mem_keys (s : Store) (id : List Char)
    (h : id ∈ s.map Prod.fst) : (storeGet s id).isSome := by
  induction s with
  | nil => simp at h
  | cons q s' ih =>
    obtain ⟨k, v⟩ := q
    simp only [List.map_cons, List.mem_cons] at h
    by_cases hk : k = id
    · simp [storeGet, hk]
    · have hmem : id ∈ s'.map Prod.fst := by
        rcases h with h | h
        · exact absurd h.symm hk
        · exact h
      simp only [storeGet, if_neg hk]
      exact ih hmem

theorem storeAdd_nodup (s : Store) (id text : List Char)
    (h : (s.map Prod.fst).Nodup) : ((storeAdd s id text).map Prod.fst).Nodup := by
  unfold storeAdd
  by_cases hp : (storeGet s id).isSome
  · rw [if_pos hp]
    exact h
  · rw [if_neg hp]
    simp only [List.map_append, List.map_cons, List.map_nil]
    refine List.Nodup.append h (by simp) ?_
    intro x hx hx'
    simp only [List.mem_singleton] at hx'
    subst hx'
    exact hp (storeGet_isSome_of_mem_keys s x hx)

theorem indexChunksFrom_nodup (H : List Char → List Char) (path : List Char)
    (chunks : List (List Char)) :
    ∀ i s, (s.map Prod.fst).Nodup →
      ((indexChunksFrom H path i chunks s).map Prod.fst).Nodup := by
  induction chunks with
  | nil =>
    intro i s h
    exact h
  | cons c cs ih =>
    intro i s h
    exact ih (i + 1) (storeAdd s (chunkId H path i) c) (storeAdd_nodup s _ c h)

-- Splitting texts whose lines contain no newline character.

theorem splitNL_no_nl (A : List Char) (h : '\n' ∉ A) : splitNL A = [A] := by
  induction A with
  | nil => rfl
  | cons c cs ih =>
    have hc : ¬ (c = '\n') := fun hh => h (by simp [hh])
    have hcs : '\n' ∉ cs := fun hh => h (by simp [hh])
    simp [splitNL, if_neg hc, ih hcs]

theorem splitNL_append (A r : List Char) (h : '\n' ∉ A) :
    splitNL (A ++ '\n' :: r) = A :: splitNL r := by
  induction A with
  | nil =>
    simp [splitNL]
  | cons c cs ih =>
    have hc : ¬ (c = '\n') := fun hh => h (by simp [hh])
    have hcs : '\n' ∉ cs := fun hh => h (by simp [hh])
    simp only [List.cons_append, splitNL, if_neg hc]
    have ih' : splitNL (cs.append ('\n' :: r)) = cs :: splitNL r := ih hcs
    rw [ih']

-- Claim theorems.

/-- C1 counterexample: chunking is not lossless.  For the single-line input
`"aaaa  "` (trailing whitespace) with max size 5, the chunker returns the
single chunk `"aaaa"`, and no insertion of separator strings between chunks
(there are none to insert) can restore the trailing whitespace, so no
rejoining reconstructs the input. -/
theorem C1_not_lossless : ¬ rejoinsTo (splitIntoChunks lossyText 5) lossyText := by
  intro hr
  obtain ⟨seps, hlen, hjoin⟩ := hr
  have hch : splitIntoChunks lossyText 5 = [('a' :: 'a' :: 'a' :: 'a' :: [])] := by decide
  rw [hch] at hlen hjoin
  have hseps : seps = [] := by
    cases seps with
    | nil => rfl
    | cons a b =>
      simp only [List.length_cons, List.length_nil] at hlen
      omega
  subst hseps
  simp only [interleave, List.append_nil] at hjoin
  exact absurd hjoin (by decide)

/-- C1 amended: chunking is lossless on inputs none of whose lines reaches
the max size `M`: joining the returned chunks with the newline separator
reconstructs the input exactly.  (In general chunking is lossy: word
wrapping collapses whitespace inside oversized lines and drops their
leading/trailing whitespace.) -/
theorem C1_lossless_short_lines (T : List Char) (M : Nat)
    (h : ∀ l ∈ splitNL T, l.length < M) :
    joinSep '\n' (splitIntoChunks T M) = T :=
  chunks_join_of_short_lines T M h

/-- Witness for C1 amended at the concrete input `"ab\nc"` with max size 5. -/
theorem C1_lossless_short_lines_witness :
    joinSep '\n' (splitIntoChunks smallText 5) = smallText :=
  C1_lossless_short_lines smallText 5 (by decide)

/-- C2: evaluation at the failing input.  Two hits whose formatted entries
are 21 characters each pass the accumulation check against
`max_context_length = 42`, but the returned string joins them with a
newline that the check never counted, so the result is 43 characters long
and exceeds the stated maximum. -/
theorem C2_result_exceeds_budget :
    42 < (getContextForQuery [emptyHit, emptyHit] 42).length := by decide

/-- C3: evaluation at the failing input.  A directory holding one empty
file and one valid file is reported as `indexed=2, skipped=0, errors=0`:
`index_file` does reject the empty file (returning an `empty_file` result),
but `index_directory` discards that returned dict and counts the file as
indexed, so the batch report claims both files were indexed. -/
theorem C3_empty_file_counted_as_indexed :
    indexDirectory [⟨true, FileContent.text []⟩, ⟨true, FileContent.text helloChars⟩]
      = ⟨2, 0, 0⟩ ∧
    indexFileContent (FileContent.text []) = IndexFileResult.emptyFile :=
  ⟨rfl, rfl⟩

/-- C5: the entries accepted by context assembly are exactly the greedy
order-preserving prefix of the hits described by the spec: the loop equals
the stop-at-first-overflow packing, the accepted entries are the formatted
image of a prefix of the hit list, the empty hit list yields an empty
context, and a first hit whose formatted entry alone exceeds the budget
yields an empty context. -/
theorem C5_greedy_order (hits : List SearchHit) (M : Nat) :
    contextLoop M hits [] 0 = specGreedyPack M hits 0 ∧
    (∃ n, contextLoop M hits [] 0 = (hits.take n).map formatEntry) ∧
    getContextForQuery [] M = [] ∧
    (∀ h rest, hits = h :: rest → M < (formatEntry h).length →
      getContextForQuery hits M = []) := by
  have he : contextLoop M hits [] 0 = specGreedyPack M hits 0 := by
    simpa using contextLoop_eq_specGreedyPack M hits [] 0
  refine ⟨he, ?_, rfl, ?_⟩
  · obtain ⟨n, hn⟩ := specGreedyPack_is_map_take M hits 0
    exact ⟨n, by rw [he, hn]⟩
  · intro h rest hh hbig
    subst hh
    unfold getContextForQuery
    have hz : contextLoop M (h :: rest) [] 0 = [] := by
      simp only [contextLoop]
      rw [if_pos (by simpa using hbig)]
    rw [hz]
    rfl

/-- Witness for C5 at one concrete hit whose 21-character entry exceeds the
budget 0. -/
theorem C5_greedy_order_witness : getContextForQuery [emptyHit] 0 = [] :=
  (C5_greedy_order [emptyHit] 0).2.2.2 emptyHit [] rfl (by decide)

/-- C6 counterexample: chunking the empty string does not return the empty
sequence (at max size 1000 it returns one empty chunk). -/
theorem C6_empty_input_not_nil : splitIntoChunks [] 1000 ≠ [] := by decide

/-- C6 amended: for every max size `M ≥ 1`, chunking the empty string
returns exactly one empty chunk, `[""]`, not the empty sequence: the empty
input has one (empty) line, which is buffered and flushed at the end
because the buffer list is non-empty. -/
theorem C6_empty_input_single_chunk (M : Nat) (h : 1 ≤ M) :
    splitIntoChunks [] M = [[]] := by
  show chunkLoop M [[]] [] 0 = [[]]
  have hM0 : ¬ (M = 0) := by omega
  have h1 : ¬ (M < ([] : List Char).length) := by simp
  have h2 : ¬ (M < 1) := by omega
  simp [chunkLoop, h1, h2, hM0, joinSep]

/-- Witness for C6 amended at max size 1000. -/
theorem C6_empty_input_single_chunk_witness : splitIntoChunks [] 1000 = [[]] :=
  C6_empty_input_single_chunk 1000 (by norm_num)

/-- C7: every chunk that exceeds the max size `M` is a single unsplittable
word (non-empty and containing no whitespace); equivalently, every chunk
either has length at most `M` or is such a word emitted verbatim. -/
theorem C7_oversized_chunk_is_word (T : List Char) (M : Nat) :
    ∀ c ∈ splitIntoChunks T M, M < c.length → isWordChunk c = true :=
  fun c hc hM =>
    chunkLoop_sound M (splitNL T) [] 0 (by simp [joinSep]) (Nat.zero_le M) c hc hM

/-- Witness for C7: the six-letter word chunk produced from `"aaaaaa"` at
max size 1 is whitespace-free. -/
theorem C7_oversized_chunk_is_word_witness : isWordChunk longWord = true :=
  C7_oversized_chunk_is_word longWord 1 longWord (by decide) (by decide)

/-- C8: chunk identity is a pure function of the document path and the
chunk index (content never enters), and `hash(path) ++ "_" ++ str(i)` is
injective over `(path, index)` pairs provided the fixed hashing scheme is
collision-free on the paths involved and has fixed output length (md5
hexdigest is always 32 characters). -/
theorem C8_chunkId_inj (H : List Char → List Char) (p p' : List Char) (i i' : Nat)
    (hlen : (H p).length = (H p').length)
    (hcoll : p ≠ p' → H p ≠ H p') :
    chunkId H p i = chunkId H p' i' ↔ (p = p' ∧ i = i') := by
  constructor
  · intro h
    obtain ⟨h1, h2⟩ := List.append_inj h hlen
    have hp : p = p' := by
      by_contra hne
      exact hcoll hne h1
    simp only [List.cons.injEq, true_and] at h2
    exact ⟨hp, natStr_inj i i' h2⟩
  · rintro ⟨rfl, rfl⟩
    rfl

/-- Witness for C8 with the identity function as the hashing scheme on two
one-character paths. -/
theorem C8_chunkId_inj_witness :
    (chunkId (fun s => s) ['a'] 0 = chunkId (fun s => s) ['b'] 1)
      ↔ (['a'] = ['b'] ∧ (0 : Nat) = 1) :=
  C8_chunkId_inj (fun s => s) ['a'] ['b'] 0 1 rfl (fun _ => by decide)

/-- C9 counterexample: indexing submits records through the store's `add`
capability, which does not replace: re-indexing a document whose chunk id
is already present leaves the old record in the store (`upsert` would have
replaced it). -/
theorem C9_add_does_not_replace :
    storeGet (indexChunks (fun s => s) ['p'] [['n']]
        [(chunkId (fun s => s) ['p'] 0, ['o'])])
        (chunkId (fun s => s) ['p'] 0) = some ['o'] ∧
    storeGet (storeUpsert [(chunkId (fun s => s) ['p'] 0, ['o'])]
        (chunkId (fun s => s) ['p'] 0) ['n'])
        (chunkId (fun s => s) ['p'] 0) = some ['n'] ∧
    (['o'] : List Char) ≠ ['n'] := by decide

/-- C9 amended: the submission path never replaces an existing record
(every id already present keeps its old value after indexing) and never
duplicates ids (a store with distinct ids still has distinct ids
afterwards); re-indexing therefore succeeds without creating duplicates,
but it does not overwrite previously stored chunk text either. -/
theorem C9_add_semantics (H : List Char → List Char) (path : List Char)
    (chunks : List (List Char)) (s : Store) :
    (∀ id, (storeGet s id).isSome →
        storeGet (indexChunks H path chunks s) id = storeGet s id) ∧
    ((s.map Prod.fst).Nodup → ((indexChunks H path chunks s).map Prod.fst).Nodup) :=
  ⟨fun id h => indexChunksFrom_preserves H path chunks 0 s id h,
   fun h => indexChunksFrom_nodup H path chunks 0 s h⟩

/-- Witness for C9 amended: a store holding the record `("k", "v")` still
answers `"v"` for id `"k"` after indexing one chunk of another document. -/
theorem C9_add_semantics_witness :
    storeGet (indexChunks (fun s => s) ['p'] [['c']] [(['k'], ['v'])]) ['k']
      = storeGet [(['k'], ['v'])] ['k'] :=
  (C9_add_semantics (fun s => s) ['p'] [['c']] [(['k'], ['v'])]).1 ['k'] (by decide)

/-- C10: when the underlying search fails, `get_context_for_query` returns
the empty string, which is exactly what a successful search returns when no
context fits the budget, so the two outcomes are indistinguishable at this
interface. -/
theorem C10_failed_search_empty (M : Nat) (h : SearchHit)
    (hbig : M < (formatEntry h).length) :
    getContextForQueryResult SearchOutcome.failed M = [] ∧
    getContextForQueryResult (SearchOutcome.succeeded [h]) M
      = getContextForQueryResult SearchOutcome.failed M := by
  refine ⟨rfl, ?_⟩
  show getContextForQuery [h] M = []
  unfold getContextForQuery
  have hz : contextLoop M [h] [] 0 = [] := by
    simp only [contextLoop]
    rw [if_pos (by simpa using hbig)]
  rw [hz]
  rfl

/-- Witness for C10 at budget 0 and one concrete hit. -/
theorem C10_failed_search_empty_witness :
    getContextForQueryResult SearchOutcome.failed 0 = [] ∧
    getContextForQueryResult (SearchOutcome.succeeded [emptyHit]) 0
      = getContextForQueryResult SearchOutcome.failed 0 :=
  C10_failed_search_empty 0 emptyHit (by decide)

/-- C4: evaluation at the failing input.  Chunking the 2500-character
document of three lines (1000/1000/500 characters) with max size 1000
yields FOUR chunks: a spurious empty first chunk followed by the three
lines.  The first line is exactly the max size, so `current_size +
line_size + 1 > max_chunk_size` fires while the buffer is still empty and
the empty buffer is flushed as the chunk `""` (the code guards the
analogous flush in the oversized-line branch with `if current_chunk:` but
omits that guard here). -/
theorem C4_scenario_extra_empty_chunk :
    splitIntoChunks doc2500 1000 = [[], line1, line2, line3] ∧
    ([[], line1, line2, line3] : List (List Char)) ≠ [line1, line2, line3] := by
  constructor
  · have h1 : '\n' ∉ line1 := fun hm => absurd (List.eq_of_mem_replicate hm) (by decide)
    have h2 : '\n' ∉ line2 := fun hm => absurd (List.eq_of_mem_replicate hm) (by decide)
    have h3 : '\n' ∉ line3 := fun hm => absurd (List.eq_of_mem_replicate hm) (by decide)
    have hsp : splitNL doc2500 = [line1, line2, line3] := by
      unfold doc2500
      rw [splitNL_append line1 (line2 ++ ('\n' :: line3)) h1]
      rw [splitNL_append line2 line3 h2]
      rw [splitNL_no_nl line3 h3]
    have hl1 : line1.length = 1000 := by
      show (List.replicate 1000 'a').length = 1000
      rw [List.length_replicate]
    have hl2 : line2.length = 1000 := by
      show (List.replicate 1000 'b').length = 1000
      rw [List.length_replicate]
    have hl3 : line3.length = 500 := by
      show (List.replicate 500 'c').length = 500
      rw [List.length_replicate]
    unfold splitIntoChunks
    rw [hsp]
    simp [chunkLoop, joinSep, hl1, hl2, hl3]
  · intro hcontra
    have hlen := congrArg List.length hcontra
    simp at hlen
